import Mathlib

/-!
# CodeVI — verification of the retrieval-fusion and code-relationship engine

Shallow embedding of the core algorithms of the CodeVI backend
(`src/backend/app/`), with theorems settling the specification claims.

Modelling conventions:
* Python strings that undergo character-level processing (`.lower()`,
  `re.sub`, `.strip`) are modelled as lists of Unicode code points
  (`List ℕ`); the model matches CPython on ASCII input (`\w`, `\s`,
  `str.lower`, `str.strip` agree with the definitions below there).
* Python strings that are only compared/concatenated are modelled as
  `List Char`.
* Python floats are modelled as exact rationals (`ℚ`).
* A Python dict read `d.get(k, default)` on a record whose key is always
  present is modelled as plain field access; where key absence is
  semantically meaningful (`endpoint_normalized`) the field is an `Option`.
-/

namespace CodeVI

/-! ## Character-level helpers (ASCII model of CPython semantics) -/

/-- Python regex `\w` on ASCII: letters, digits, underscore. -/
def wordB (n : ℕ) : Bool :=
  decide ((48 ≤ n ∧ n ≤ 57) ∨ (65 ≤ n ∧ n ≤ 90) ∨ (97 ≤ n ∧ n ≤ 122) ∨ n = 95)

/-- Python regex `\s` / `str.isspace` on ASCII:
space, TAB, LF, VT, FF, CR and the separator controls 28–31. -/
def spaceB (n : ℕ) : Bool :=
  decide (n = 32 ∨ (9 ≤ n ∧ n ≤ 13) ∨ (28 ≤ n ∧ n ≤ 31))

/-- `str.lower` on ASCII: map A–Z (65–90) to a–z (97–122). -/
def lowerN (n : ℕ) : ℕ := if 65 ≤ n ∧ n ≤ 90 then n + 32 else n

/-- `text.lower()` character-wise. -/
def pyLower (s : List ℕ) : List ℕ := s.map lowerN

/-- `str.strip(chars)` generalised: drop characters satisfying `p` from
both ends. -/
def stripBy (p : ℕ → Bool) (s : List ℕ) : List ℕ :=
  ((s.dropWhile p).reverse.dropWhile p).reverse

/-- `text.strip()` (no argument): strip whitespace from both ends. -/
def pyStrip (s : List ℕ) : List ℕ := stripBy spaceB s

/-- `re.sub(r'[^\w\s]', ' ', text)`: each character that is neither a word
character nor whitespace becomes a single space. -/
def subNonWord (s : List ℕ) : List ℕ :=
  s.map fun n => if !wordB n && !spaceB n then 32 else n

/-- Worker for `re.sub(r'\s+', ' ', text)`: the flag records whether the
previous character belonged to a whitespace run already emitted as one
space. -/
def collapseGo : Bool → List ℕ → List ℕ
  | _, [] => []
  | prevWs, c :: cs =>
    if spaceB c then
      if prevWs then collapseGo true cs else 32 :: collapseGo true cs
    else c :: collapseGo false cs

/-- `re.sub(r'\s+', ' ', text)`: each maximal whitespace run becomes one
space. -/
def collapseWs (s : List ℕ) : List ℕ := collapseGo false s

/-- `QueryUnderstandingLayer._normalize_text`
(`hybrid_search_pipeline.py` lines 92–99):
`text.lower().strip()`, then `re.sub(r'[^\w\s]', ' ', text)`, then
`re.sub(r'\s+', ' ', text)`. -/
def normalize_text (s : List ℕ) : List ℕ :=
  collapseWs (subNonWord (pyStrip (pyLower s)))

/-- Decode a Lean string literal to its code-point list (used only to
write concrete inputs readably). -/
def strN (s : String) : List ℕ := s.data.map Char.toNat

/-- `"api/"` as code points. -/
def apiSlashPre : List ℕ := strN "api/"

/-- `"/api/"` as code points. -/
def slashApiSlashPre : List ℕ := strN "/api/"

/-- `GraphService._normalize_endpoint` (`graph_service.py` lines 14–31):
empty guard, `strip('/')`, drop a leading `api/` (4 chars) else a leading
`/api/` (5 chars), then `.lower()`. -/
def normalize_endpoint (e : List ℕ) : List ℕ :=
  if e = [] then []
  else
    let s := stripBy (fun n => n == 47) e
    let s2 :=
      if apiSlashPre.isPrefixOf s then s.drop 4
      else if slashApiSlashPre.isPrefixOf s then s.drop 5
      else s
    pyLower s2

/-- `CodeGraphBuilder._normalize_endpoint` (`code_graph_builder.py` lines
294–301): empty guard, `strip('/').lower()`, then drop a leading `api/`. -/
def normalize_endpoint_cgb (e : List ℕ) : List ℕ :=
  if e = [] then []
  else
    let s := pyLower (stripBy (fun n => n == 47) e)
    if apiSlashPre.isPrefixOf s then s.drop 4 else s

/-! ### Lemmas about the character-level normalizers -/

theorem lowerN_idem (n : ℕ) : lowerN (lowerN n) = lowerN n := by
  simp only [lowerN]; split_ifs <;> omega

theorem lowerN_space (n : ℕ) : spaceB (lowerN n) = spaceB n := by
  simp only [lowerN, spaceB]; split_ifs with h
  · have h1 : ¬ (n + 32 = 32 ∨ (9 ≤ n + 32 ∧ n + 32 ≤ 13) ∨ (28 ≤ n + 32 ∧ n + 32 ≤ 31)) := by omega
    have h2 : ¬ (n = 32 ∨ (9 ≤ n ∧ n ≤ 13) ∨ (28 ≤ n ∧ n ≤ 31)) := by omega
    rw [decide_eq_false h1, decide_eq_false h2]
  · rfl

theorem map_fix {α : Type} (f : α → α) :
    ∀ l : List α, (∀ a ∈ l, f a = a) → l.map f = l := by
  intro l h
  induction l with
  | nil => rfl
  | cons a t ih =>
    simp only [List.map_cons, List.cons.injEq]
    exact ⟨h a (List.mem_cons_self a t), ih fun b hb => h b (List.mem_cons_of_mem a hb)⟩

theorem mem_stripBy {p : ℕ → Bool} {s : List ℕ} {a : ℕ} (h : a ∈ stripBy p s) :
    a ∈ s := by
  simp only [stripBy, List.mem_reverse] at h
  have h1 : a ∈ (s.dropWhile p).reverse := (List.dropWhile_sublist p).mem h
  simp only [List.mem_reverse] at h1
  exact (List.dropWhile_sublist p).mem h1

theorem mem_collapseGo {s : List ℕ} {a : ℕ} :
    ∀ {b : Bool}, a ∈ collapseGo b s → a = 32 ∨ (a ∈ s ∧ spaceB a = false) := by
  induction s with
  | nil => intro b h; simp [collapseGo] at h
  | cons c cs ih =>
    intro b h
    simp only [collapseGo] at h
    by_cases hc : spaceB c = true
    · rw [if_pos hc] at h
      cases b with
      | true =>
        rcases ih h with h' | ⟨h1, h2⟩
        · exact Or.inl h'
        · exact Or.inr ⟨List.mem_cons_of_mem c h1, h2⟩
      | false =>
        rcases List.mem_cons.mp h with h' | h'
        · exact Or.inl h'
        · rcases ih h' with h'' | ⟨h1, h2⟩
          · exact Or.inl h''
          · exact Or.inr ⟨List.mem_cons_of_mem c h1, h2⟩
    · rw [if_neg hc] at h
      rcases List.mem_cons.mp h with h' | h'
      · subst h'
        exact Or.inr ⟨List.mem_cons_self a cs, by simpa using hc⟩
      · rcases ih h' with h'' | ⟨h1, h2⟩
        · exact Or.inl h''
        · exact Or.inr ⟨List.mem_cons_of_mem c h1, h2⟩

theorem mem_subNonWord {s : List ℕ} {a : ℕ} (h : a ∈ subNonWord s) :
    (a = 32 ∨ a ∈ s) ∧ (wordB a = true ∨ spaceB a = true) := by
  simp only [subNonWord, List.mem_map] at h
  obtain ⟨b, hb, hba⟩ := h
  by_cases hw : (!wordB b && !spaceB b) = true
  · rw [if_pos hw] at hba
    exact ⟨Or.inl hba.symm, Or.inr (by rw [← hba]; rfl)⟩
  · rw [if_neg hw] at hba
    subst hba
    simp only [Bool.and_eq_true, Bool.not_eq_true'] at hw
    refine ⟨Or.inr hb, ?_⟩
    by_cases h1 : wordB b = true
    · exact Or.inl h1
    · by_cases h2 : spaceB b = true
      · exact Or.inr h2
      · exact absurd ⟨by simpa using h1, by simpa using h2⟩ hw

/-- Adjacent characters of a collapsed string are never both whitespace. -/
def NSS (a b : ℕ) : Prop := spaceB a = false ∨ spaceB b = false

theorem collapseGo_head_not_space {s : List ℕ} {a : ℕ}
    (h : (collapseGo true s).head? = some a) : spaceB a = false := by
  induction s with
  | nil => simp [collapseGo] at h
  | cons c cs ih =>
    simp only [collapseGo] at h
    by_cases hc : spaceB c = true
    · rw [if_pos hc] at h; exact ih h
    · rw [if_neg hc] at h
      simp only [List.head?_cons, Option.some.injEq] at h
      subst h; simpa using hc

theorem collapseGo_chain (s : List ℕ) : ∀ b, List.Chain' NSS (collapseGo b s) := by
  induction s with
  | nil => intro b; simp [collapseGo]
  | cons c cs ih =>
    intro b
    simp only [collapseGo]
    by_cases hc : spaceB c = true
    · rw [if_pos hc]
      cases b with
      | true => exact ih true
      | false =>
        simp only [if_neg (by simp : ¬ false = true)]
        rw [List.chain'_cons']
        refine ⟨fun y hy => Or.inr (collapseGo_head_not_space hy), ih true⟩
    · rw [if_neg hc]
      rw [List.chain'_cons']
      exact ⟨fun y _ => Or.inl (by simpa using hc), ih false⟩

theorem collapseGo_fix (s : List ℕ)
    (hch : List.Chain' NSS s) (h32 : ∀ a ∈ s, spaceB a = true → a = 32) :
    collapseGo false s = s ∧
      ((∀ a, s.head? = some a → spaceB a = false) → collapseGo true s = s) := by
  induction s with
  | nil => exact ⟨rfl, fun _ => rfl⟩
  | cons c cs ih =>
    rw [List.chain'_cons'] at hch
    obtain ⟨hhd, hch'⟩ := hch
    have ih' := ih hch' (fun a ha hs => h32 a (List.mem_cons_of_mem c ha) hs)
    by_cases hc : spaceB c = true
    · have hc32 : c = 32 := h32 c (List.mem_cons_self c cs) hc
      have htrue : collapseGo true cs = cs := by
        apply ih'.2
        intro a ha
        rcases hhd a ha with h' | h'
        · exact absurd hc (by simp [h'])
        · exact h'
      constructor
      · simp only [collapseGo, if_pos hc, if_neg (by simp : ¬ false = true)]
        rw [htrue, hc32]
      · intro hh
        exact absurd (hh c rfl) (by simp [hc])
    · constructor
      · simp only [collapseGo, if_neg hc]
        rw [ih'.1]
      · intro _
        simp only [collapseGo, if_neg hc]
        rw [ih'.1]

theorem stripBy_infixOf (p : ℕ → Bool) (s : List ℕ) : stripBy p s <:+: s := by
  have h1 : s.dropWhile p <:+ s := List.dropWhile_suffix p
  have h2 : (s.dropWhile p).reverse.dropWhile p <:+ (s.dropWhile p).reverse :=
    List.dropWhile_suffix p
  have h3 : stripBy p s <+: s.dropWhile p := by
    rw [← List.reverse_suffix]
    simpa [stripBy] using h2
  exact h3.isInfix.trans h1.isInfix

theorem wordB_not_space {a : ℕ} (hw : wordB a = true) : spaceB a = false := by
  simp only [wordB, decide_eq_true_eq] at hw
  simp only [spaceB, decide_eq_false_iff_not]
  omega

/-- **C5 (counterexample).** Query-text normalization is not idempotent:
on the two-character input `"!a"` one pass yields `" a"` (the replaced
punctuation leaves a leading space because stripping happens *before* the
substitutions), and a second pass strips that space. -/
theorem normalize_text_not_idempotent :
    normalize_text (normalize_text (strN "!a")) ≠ normalize_text (strN "!a") := by
  decide

/-- **C5 (amended).** A second application of
`QueryUnderstandingLayer._normalize_text` only strips the leading/trailing
whitespace left by the first pass: `normalize ∘ normalize = strip ∘
normalize`. In particular normalization is idempotent exactly on inputs
whose normal form has no edge whitespace. -/
theorem normalize_text_twice (q : List ℕ) :
    normalize_text (normalize_text q) = pyStrip (normalize_text q) := by
  have hmem : ∀ a ∈ normalize_text q, (wordB a = true ∨ a = 32) ∧ lowerN a = a := by
    intro a ha
    unfold normalize_text collapseWs at ha
    rcases mem_collapseGo ha with h32 | ⟨hsub, hnspace⟩
    · subst h32; exact ⟨Or.inr rfl, by norm_num [lowerN]⟩
    · have h2 := mem_subNonWord hsub
      constructor
      · rcases h2.2 with hw | hs
        · exact Or.inl hw
        · exact absurd hs (by simp [hnspace])
      · rcases h2.1 with h32 | hmemStrip
        · subst h32; norm_num [lowerN]
        · have hm : a ∈ pyLower q := mem_stripBy hmemStrip
          simp only [pyLower, List.mem_map] at hm
          obtain ⟨b, _, hb⟩ := hm
          rw [← hb]; exact lowerN_idem b
  set r := normalize_text q with hr
  have hlower : pyLower r = r := map_fix _ r fun a ha => (hmem a ha).2
  have hchain : List.Chain' NSS r := by rw [hr]; exact collapseGo_chain _ false
  have h32 : ∀ a ∈ r, spaceB a = true → a = 32 := by
    intro a ha hs
    rcases (hmem a ha).1 with hw | h32
    · exact absurd hs (by simp [wordB_not_space hw])
    · exact h32
  show normalize_text r = pyStrip r
  unfold normalize_text
  rw [hlower]
  have hsubfix : subNonWord (pyStrip r) = pyStrip r := by
    simp only [subNonWord]
    apply map_fix
    intro a ha
    have har : a ∈ r := mem_stripBy ha
    rcases (hmem a har).1 with hw | h32
    · simp [hw]
    · subst h32; norm_num [spaceB]
  rw [hsubfix]
  have hchainstrip : List.Chain' NSS (pyStrip r) := hchain.infix (stripBy_infixOf _ _)
  have h32' : ∀ a ∈ pyStrip r, spaceB a = true → a = 32 :=
    fun a ha => h32 a (mem_stripBy ha)
  exact (collapseGo_fix _ hchainstrip h32').1

/-! ### Endpoint normalization lemmas (C6) -/

theorem head?_dropWhile {p : ℕ → Bool} {l : List ℕ} {a : ℕ}
    (h : (l.dropWhile p).head? = some a) : p a = false := by
  induction l with
  | nil => simp at h
  | cons c cs ih =>
    rw [List.dropWhile_cons] at h
    by_cases hc : p c = true
    · rw [if_pos hc] at h; exact ih h
    · rw [if_neg hc] at h
      simp only [List.head?_cons, Option.some.injEq] at h
      subst h; simpa using hc

theorem getLast?_stripBy {p : ℕ → Bool} {l : List ℕ} {a : ℕ}
    (h : (stripBy p l).getLast? = some a) : p a = false := by
  unfold stripBy at h
  rw [List.getLast?_reverse] at h
  exact head?_dropWhile h

theorem getLast?_drop {l : List ℕ} {k a : ℕ}
    (h : (l.drop k).getLast? = some a) : l.getLast? = some a := by
  induction l generalizing k with
  | nil => simp at h
  | cons c cs ih =>
    cases k with
    | zero => simpa using h
    | succ k =>
      simp only [List.drop_succ_cons] at h
      have hcs := ih h
      rw [List.getLast?_cons, hcs]
      rfl

theorem normalize_endpoint_getLast {e : List ℕ} {a : ℕ}
    (h : (normalize_endpoint e).getLast? = some a) : a ≠ 47 := by
  unfold normalize_endpoint at h
  by_cases he : e = []
  · simp [he] at h
  · rw [if_neg he] at h
    have hex : ∃ k,
        (if apiSlashPre.isPrefixOf (stripBy (fun n => n == 47) e) then
          (stripBy (fun n => n == 47) e).drop 4
         else if slashApiSlashPre.isPrefixOf (stripBy (fun n => n == 47) e) then
          (stripBy (fun n => n == 47) e).drop 5
         else stripBy (fun n => n == 47) e)
        = (stripBy (fun n => n == 47) e).drop k := by
      split_ifs
      exacts [⟨4, rfl⟩, ⟨5, rfl⟩, ⟨0, (List.drop_zero _).symm⟩]
    obtain ⟨k, hk⟩ := hex
    simp only [hk, pyLower, List.getLast?_map] at h
    cases hgl : ((stripBy (fun n => n == 47) e).drop k).getLast? with
    | none => rw [hgl] at h; simp at h
    | some b =>
      rw [hgl] at h
      simp only [Option.map_some', Option.some.injEq] at h
      have hb : (b == 47) = false :=
        @getLast?_stripBy (fun n => n == 47) e b (getLast?_drop hgl)
      simp only [beq_eq_false_iff_ne, ne_eq] at hb
      rw [← h]
      unfold lowerN
      split_ifs <;> omega

theorem normalize_endpoint_lower (e : List ℕ) :
    pyLower (normalize_endpoint e) = normalize_endpoint e := by
  unfold normalize_endpoint
  by_cases he : e = []
  · simp [he, pyLower]
  · rw [if_neg he]
    simp only [pyLower, List.map_map]
    rw [show lowerN ∘ lowerN = lowerN from funext lowerN_idem]

theorem normalize_endpoint_cond_idem (e : List ℕ)
    (h1 : apiSlashPre.isPrefixOf (normalize_endpoint e) = false)
    (h2 : (normalize_endpoint e).head? ≠ some 47) :
    normalize_endpoint (normalize_endpoint e) = normalize_endpoint e := by
  set r := normalize_endpoint e with hr
  by_cases hrne : r = []
  · rw [hrne]; rfl
  · have hlast : ∀ a, r.getLast? = some a → a ≠ 47 := by
      intro a ha; exact normalize_endpoint_getLast (hr ▸ ha)
    have hstrip : stripBy (fun n => n == 47) r = r := by
      unfold stripBy
      have hdw : r.dropWhile (fun n => n == 47) = r := by
        cases hcase : r with
        | nil => rfl
        | cons c cs =>
          rw [List.dropWhile_cons, if_neg]
          intro hc
          simp only [beq_iff_eq] at hc
          exact h2 (by rw [hcase, hc]; rfl)
      rw [hdw]
      have hdw2 : r.reverse.dropWhile (fun n => n == 47) = r.reverse := by
        cases hrev : r.reverse with
        | nil => rfl
        | cons c cs =>
          rw [List.dropWhile_cons, if_neg]
          intro hc
          simp only [beq_iff_eq] at hc
          have hcl : r.getLast? = some c := by
            rw [← List.head?_reverse, hrev]; rfl
          exact hlast c hcl (by rw [hc])
      rw [hdw2, List.reverse_reverse]
    have hp2 : slashApiSlashPre.isPrefixOf r = false := by
      cases hcase : r with
      | nil => rfl
      | cons c cs =>
        have hc : c ≠ 47 := by
          intro hc
          exact h2 (by rw [hcase, hc]; rfl)
        rw [show slashApiSlashPre = 47 :: [97, 112, 105, 47] from by decide]
        show (47 == c && List.isPrefixOf _ cs) = false
        have : (47 == c) = false := by simpa using fun h => hc h.symm
        rw [this, Bool.false_and]
    show normalize_endpoint r = r
    unfold normalize_endpoint
    rw [if_neg hrne, hstrip]
    show pyLower
        (if apiSlashPre.isPrefixOf r = true then r.drop 4
         else if slashApiSlashPre.isPrefixOf r = true then r.drop 5 else r) = r
    rw [if_neg (by simp [h1]), if_neg (by simp [hp2]), hr]
    exact normalize_endpoint_lower e

/-- **C6 (counterexample).** `GraphService._normalize_endpoint` is not
idempotent: `"api/api/x"` normalizes to `"api/x"`, which normalizes
further to `"x"` (a second pass strips a further `api/` segment). -/
theorem normalize_endpoint_not_idempotent :
    normalize_endpoint (normalize_endpoint (strN "api/api/x")) ≠
      normalize_endpoint (strN "api/api/x") := by
  decide

/-- **C6 (amended).** Endpoint normalization is independent of prefix
style — `normalize("/api/search/")`, `normalize("api/search")` and
`normalize("search")` all equal `"search"`, in both the `GraphService` and
the `CodeGraphBuilder` variants — and it is idempotent on every endpoint
whose normal form neither starts with `api/` nor with `/` (but not in
general, see the counterexample). -/
theorem normalize_endpoint_prefix_styles :
    (normalize_endpoint (strN "/api/search/") = strN "search" ∧
     normalize_endpoint (strN "api/search") = strN "search" ∧
     normalize_endpoint (strN "search") = strN "search") ∧
    (normalize_endpoint_cgb (strN "/api/search/") = strN "search" ∧
     normalize_endpoint_cgb (strN "api/search") = strN "search" ∧
     normalize_endpoint_cgb (strN "search") = strN "search") ∧
    (∀ e, apiSlashPre.isPrefixOf (normalize_endpoint e) = false →
      (normalize_endpoint e).head? ≠ some 47 →
      normalize_endpoint (normalize_endpoint e) = normalize_endpoint e) :=
  ⟨⟨by decide, by decide, by decide⟩, ⟨by decide, by decide, by decide⟩,
    fun e h1 h2 => normalize_endpoint_cond_idem e h1 h2⟩

/-- **C6 (witness).** The amended idempotence applied at the concrete
endpoint `"search"`. -/
theorem normalize_endpoint_prefix_styles_witness :
    normalize_endpoint (normalize_endpoint (strN "search")) =
      normalize_endpoint (strN "search") :=
  normalize_endpoint_prefix_styles.2.2 (strN "search") (by decide) (by decide)

/-! ## Score fusion (`SearchService.hybrid_search`, `HybridRanker`)

Floats are modelled as exact rationals. -/

/-- `min(scores) if scores else 0` (`hybrid_search_pipeline.py` line 442). -/
def pyMin : List ℚ → ℚ
  | [] => 0
  | x :: xs => xs.foldl min x

/-- `max(scores) if scores else 1` (`hybrid_search_pipeline.py` line 443). -/
def pyMax : List ℚ → ℚ
  | [] => 1
  | x :: xs => xs.foldl max x

/-- `np.min` over a score array. The `[]` case is unreachable in
`hybrid_search` (it returns early when the index is empty; numpy raises on
an empty array). -/
def npMin : List ℚ → ℚ
  | [] => 0
  | x :: xs => xs.foldl min x

/-- `np.max` over a score array (same remark as `npMin`). -/
def npMax : List ℚ → ℚ
  | [] => 0
  | x :: xs => xs.foldl max x

/-- The normalized-score list computed by `HybridRanker._normalize_scores`
(`hybrid_search_pipeline.py` lines 435–448): empty input returns an empty
map; a constant list maps every member to `1.0`; otherwise
`(s - min) / (max - min)`. -/
def minmaxRanker (scores : List ℚ) : List ℚ :=
  if scores = [] then []
  else
    let mn := pyMin scores
    let mx := pyMax scores
    if mx = mn then List.replicate scores.length 1
    else scores.map fun s => (s - mn) / (mx - mn)

/-- The normalization in `SearchService.hybrid_search`
(`search_service.py` lines 390–407): `(x - min) / range` when
`range > 0`, else `np.zeros_like` — every member of a constant list
becomes `0.0`. -/
def minmaxZeros (scores : List ℚ) : List ℚ :=
  let mn := npMin scores
  let mx := npMax scores
  if 0 < mx - mn then scores.map fun s => (s - mn) / (mx - mn)
  else List.replicate scores.length 0

/-- Strict order on corpus indices: by score, ties by index. This is the
order realised by a stable ascending `np.argsort`. -/
def idxLt (c : List ℚ) (i j : ℕ) : Prop :=
  c.getD i 0 < c.getD j 0 ∨ (c.getD i 0 = c.getD j 0 ∧ i < j)

instance (c : List ℚ) (i j : ℕ) : Decidable (idxLt c i j) := by
  unfold idxLt; infer_instance

/-- Insert index `i` into an `idxLt`-sorted index list. -/
def insIdx (c : List ℚ) (i : ℕ) : List ℕ → List ℕ
  | [] => [i]
  | j :: js => if idxLt c i j then i :: j :: js else j :: insIdx c i js

/-- One concrete realisation of `np.argsort(combined_scores)` used by the
executable model: the stable ascending argsort (sort `[0, …, n-1]` by
score, ties in index order). numpy's default `kind='quicksort'` is *not*
stable, so the program guarantees only `IsAscArgsort` below — a
permutation of `range(n)` that is non-decreasing in the scores, with tie
order unspecified; this stable realisation satisfies `IsAscArgsort`
(`argsortAsc_isAscArgsort`) and agrees with numpy's actual behaviour on
arrays below the introsort insertion-sort cutoff, in particular on the
two-element tie of the counterexample below, where introsort runs
insertion sort and `argsort([x, x]) = [0, 1]`. -/
def argsortAsc (c : List ℚ) : List ℕ :=
  (List.range c.length).foldr (insIdx c) []

/-- What `np.argsort` (any `kind`, stable or not) guarantees about its
output on the score array `c`: it is a permutation of `[0, …, n-1]` and
the scores it indexes are non-decreasing along it. The order of tied
indices is *not* specified. -/
def IsAscArgsort (c : List ℚ) (idx : List ℕ) : Prop :=
  idx.Perm (List.range c.length) ∧
  List.Pairwise (fun i j => c.getD i 0 ≤ c.getD j 0) idx

/-- Core of `SearchService.hybrid_search` (`search_service.py` lines
350–439) after the two engines produced the raw per-document BM25 and
cosine score arrays for the query (both indexed by corpus position):
normalize the caller weights by their sum when positive, min–max
normalize both score lists, fuse (`semantic_weight * sem_norm +
lexical_weight * bm25_norm`), rank by `np.argsort(..)[::-1][:max_results]`
and format. Each formatted result dict is a function of the tuple
(corpus index, combined, semantic-normalized, bm25-normalized) returned
here. -/
def hybrid_search_rank (bm25 sem : List ℚ) (semW lexW : ℚ) (maxResults : ℕ) :
    List (ℕ × ℚ × ℚ × ℚ) :=
  let total := semW + lexW
  let semW' := if 0 < total then semW / total else semW
  let lexW' := if 0 < total then lexW / total else lexW
  let bmN := minmaxZeros bm25
  let semN := minmaxZeros sem
  let combined := List.zipWith (fun s b => semW' * s + lexW' * b) semN bmN
  ((argsortAsc combined).reverse.take maxResults).map
    fun i => (i, combined.getD i 0, semN.getD i 0, bmN.getD i 0)

/-- The entity keys (`name` field of `semantic_index_data[idx]`) of the
ranked results, in output order. -/
def hybrid_search_keys (names : List (List Char)) (bm25 sem : List ℚ)
    (semW lexW : ℚ) (maxResults : ℕ) : List (List Char) :=
  (hybrid_search_rank bm25 sem semW lexW maxResults).map fun r => names.getD r.1 []

/-- The fused score array of `hybrid_search` (`search_service.py` line
410): `semantic_weight * sem_norm + lexical_weight * bm25_norm` after
weight normalization — the array `np.argsort` is applied to. -/
def fusedScores (bm25 sem : List ℚ) (semW lexW : ℚ) : List ℚ :=
  let total := semW + lexW
  let semW' := if 0 < total then semW / total else semW
  let lexW' := if 0 < total then lexW / total else lexW
  List.zipWith (fun s b => semW' * s + lexW' * b) (minmaxZeros sem) (minmaxZeros bm25)

/-! ### Fold bounds for min/max -/

theorem foldl_min_le (xs : List ℚ) (a : ℚ) :
    xs.foldl min a ≤ a ∧ ∀ s ∈ xs, xs.foldl min a ≤ s := by
  induction xs generalizing a with
  | nil => exact ⟨le_refl a, by simp⟩
  | cons b bs ih =>
    simp only [List.foldl_cons]
    have h := ih (min a b)
    refine ⟨h.1.trans (min_le_left a b), ?_⟩
    intro s hs
    rcases List.mem_cons.mp hs with rfl | hs'
    · exact h.1.trans (min_le_right a s)
    · exact h.2 s hs'

theorem foldl_max_ge (xs : List ℚ) (a : ℚ) :
    a ≤ xs.foldl max a ∧ ∀ s ∈ xs, s ≤ xs.foldl max a := by
  induction xs generalizing a with
  | nil => exact ⟨le_refl a, by simp⟩
  | cons b bs ih =>
    simp only [List.foldl_cons]
    have h := ih (max a b)
    refine ⟨(le_max_left a b).trans h.1, ?_⟩
    intro s hs
    rcases List.mem_cons.mp hs with rfl | hs'
    · exact (le_max_right a s).trans h.1
    · exact h.2 s hs'

theorem mem_zip_map_self {α β : Type} {l : List α} {f : α → β} {p : α × β}
    (hp : p ∈ l.zip (l.map f)) : ∃ s ∈ l, p = (s, f s) := by
  induction l with
  | nil => simp at hp
  | cons x xs ih =>
    simp only [List.map_cons, List.zip_cons_cons] at hp
    rcases List.mem_cons.mp hp with rfl | hp'
    · exact ⟨x, List.mem_cons_self x xs, rfl⟩
    · obtain ⟨s, hs, hps⟩ := ih hp'
      exact ⟨s, List.mem_cons_of_mem x hs, hps⟩

theorem pyMin_le {scores : List ℚ} {s : ℚ} (h : s ∈ scores) :
    pyMin scores ≤ s := by
  cases scores with
  | nil => simp at h
  | cons x xs =>
    rcases List.mem_cons.mp h with rfl | hs
    · exact (foldl_min_le xs s).1
    · exact (foldl_min_le xs x).2 s hs

theorem le_pyMax {scores : List ℚ} {s : ℚ} (h : s ∈ scores) :
    s ≤ pyMax scores := by
  cases scores with
  | nil => simp at h
  | cons x xs =>
    rcases List.mem_cons.mp h with rfl | hs
    · exact (foldl_max_ge xs s).1
    · exact (foldl_max_ge xs x).2 s hs

/-- **C4 (counterexample).** In `SearchService.hybrid_search` a constant
score list is *not* normalized to all-`1.0`: the `range > 0` test fails
and `np.zeros_like` assigns `0.0` to every member. -/
theorem minmaxZeros_constant_counterexample :
    minmaxZeros [2, 2] = [0, 0] ∧ ((0 : ℚ) ≠ 1) := by
  constructor
  · show (if (0:ℚ) < npMax [2, 2] - npMin [2, 2] then _ else _) = _
    rw [if_neg (by norm_num [npMin, npMax])]
    rfl
  · norm_num

/-- **C4 (amended).** Min–max normalization: in
`HybridRanker._normalize_scores` a non-constant list maps its maximum to
`1.0`, its minimum to `0.0` and every member into `[0, 1]`, and a
constant (or empty) list maps every member to `1.0`; in
`SearchService.hybrid_search`, however, a constant list maps every member
to `0.0`, not `1.0`. -/
theorem minmax_normalization (scores : List ℚ) :
    (pyMin scores < pyMax scores →
      ∀ p ∈ scores.zip (minmaxRanker scores),
        0 ≤ p.2 ∧ p.2 ≤ 1 ∧ (p.1 = pyMax scores → p.2 = 1) ∧
          (p.1 = pyMin scores → p.2 = 0)) ∧
    (pyMin scores = pyMax scores →
      minmaxRanker scores = List.replicate scores.length 1) ∧
    (npMin scores = npMax scores →
      minmaxZeros scores = List.replicate scores.length 0) := by
  refine ⟨?_, ?_, ?_⟩
  · intro hlt p hp
    by_cases hne : scores = []
    · subst hne; simp [minmaxRanker] at hp
    have hform : minmaxRanker scores =
        scores.map fun s => (s - pyMin scores) / (pyMax scores - pyMin scores) := by
      unfold minmaxRanker
      rw [if_neg hne, if_neg (ne_of_gt hlt)]
    rw [hform] at hp
    obtain ⟨s, hs, rfl⟩ := mem_zip_map_self hp
    have hmn := pyMin_le hs
    have hmx := le_pyMax hs
    have hpos : 0 < pyMax scores - pyMin scores := sub_pos.mpr hlt
    refine ⟨div_nonneg (sub_nonneg.mpr hmn) hpos.le, ?_, ?_, ?_⟩
    · exact (div_le_one hpos).mpr (by linarith)
    · intro hs'
      have h2 : s = pyMax scores := hs'
      rw [h2]
      exact div_self (ne_of_gt hpos)
    · intro hs'
      have h2 : s = pyMin scores := hs'
      rw [h2, sub_self, zero_div]
  · intro heq
    unfold minmaxRanker
    by_cases hne : scores = []
    · subst hne; simp
    · rw [if_neg hne, if_pos heq.symm]
  · intro heq
    unfold minmaxZeros
    rw [if_neg (by rw [heq]; simp)]

/-- **C4 (witness).** The amended normalization applied to the constant
list `[2, 2]`: the ranker assigns `1.0` everywhere, `hybrid_search`
assigns `0.0` everywhere. -/
theorem minmax_normalization_witness :
    minmaxRanker [2, 2] = List.replicate 2 1 ∧
      minmaxZeros [2, 2] = List.replicate 2 0 :=
  ⟨(minmax_normalization [2, 2]).2.1 (by norm_num [pyMin, pyMax]),
   (minmax_normalization [2, 2]).2.2 (by norm_num [npMin, npMax])⟩

/-! ### The ranking order (C3, C10) -/

theorem idxLt_trans {c : List ℚ} {i j k : ℕ}
    (h1 : idxLt c i j) (h2 : idxLt c j k) : idxLt c i k := by
  rcases h1 with h1 | ⟨h1e, h1n⟩ <;> rcases h2 with h2 | ⟨h2e, h2n⟩
  · exact Or.inl (h1.trans h2)
  · exact Or.inl (h2e ▸ h1)
  · exact Or.inl (h1e ▸ h2)
  · exact Or.inr ⟨h1e.trans h2e, h1n.trans h2n⟩

theorem idxLt_total {c : List ℚ} {i j : ℕ} (h : i ≠ j) :
    idxLt c i j ∨ idxLt c j i := by
  rcases lt_trichotomy (c.getD i 0) (c.getD j 0) with h1 | h1 | h1
  · exact Or.inl (Or.inl h1)
  · rcases Nat.lt_or_ge i j with h2 | h2
    · exact Or.inl (Or.inr ⟨h1, h2⟩)
    · exact Or.inr (Or.inr ⟨h1.symm, lt_of_le_of_ne h2 (Ne.symm h)⟩)
  · exact Or.inr (Or.inl h1)

theorem mem_insIdx {c : List ℚ} {i j : ℕ} :
    ∀ {l : List ℕ}, j ∈ insIdx c i l → j = i ∨ j ∈ l := by
  intro l
  induction l with
  | nil => intro h; simp [insIdx] at h; exact Or.inl h
  | cons x xs ih =>
    intro h
    unfold insIdx at h
    by_cases hc : idxLt c i x
    · rw [if_pos hc] at h
      rcases List.mem_cons.mp h with rfl | h'
      · exact Or.inl rfl
      · exact Or.inr h'
    · rw [if_neg hc] at h
      rcases List.mem_cons.mp h with rfl | h'
      · exact Or.inr (List.mem_cons_self j xs)
      · rcases ih h' with h'' | h''
        · exact Or.inl h''
        · exact Or.inr (List.mem_cons_of_mem x h'')

theorem insIdx_pairwise {c : List ℚ} {i : ℕ} :
    ∀ {l : List ℕ}, i ∉ l → List.Pairwise (idxLt c) l →
      List.Pairwise (idxLt c) (insIdx c i l) := by
  intro l
  induction l with
  | nil => intro _ _; simp [insIdx]
  | cons x xs ih =>
    intro hni hs
    rw [List.pairwise_cons] at hs
    obtain ⟨hx, hxs⟩ := hs
    have hne : i ≠ x := fun h => hni (h ▸ List.mem_cons_self x xs)
    have hnixs : i ∉ xs := fun h => hni (List.mem_cons_of_mem x h)
    unfold insIdx
    by_cases hc : idxLt c i x
    · rw [if_pos hc, List.pairwise_cons]
      refine ⟨?_, List.pairwise_cons.mpr ⟨hx, hxs⟩⟩
      intro k hk
      rcases List.mem_cons.mp hk with rfl | hk'
      · exact hc
      · exact idxLt_trans hc (hx k hk')
    · rw [if_neg hc, List.pairwise_cons]
      refine ⟨?_, ih hnixs hxs⟩
      intro k hk
      rcases mem_insIdx hk with rfl | hk'
      · rcases idxLt_total hne with h' | h'
        · exact absurd h' hc
        · exact h'
      · exact hx k hk'

theorem mem_foldr_insIdx {c : List ℚ} :
    ∀ {l : List ℕ} {j : ℕ}, j ∈ l.foldr (insIdx c) [] → j ∈ l := by
  intro l
  induction l with
  | nil => intro j h; simpa using h
  | cons x xs ih =>
    intro j h
    simp only [List.foldr_cons] at h
    rcases mem_insIdx h with rfl | h'
    · exact List.mem_cons_self j xs
    · exact List.mem_cons_of_mem x (ih h')

theorem argsortAsc_pairwise (c : List ℚ) :
    List.Pairwise (idxLt c) (argsortAsc c) := by
  unfold argsortAsc
  have : ∀ l : List ℕ, l.Nodup → List.Pairwise (idxLt c) (l.foldr (insIdx c) []) := by
    intro l
    induction l with
    | nil => intro _; simp
    | cons x xs ih =>
      intro hnd
      rw [List.nodup_cons] at hnd
      simp only [List.foldr_cons]
      exact insIdx_pairwise (fun h => hnd.1 (mem_foldr_insIdx h)) (ih hnd.2)
  exact this _ (List.nodup_range _)

theorem insIdx_perm (c : List ℚ) (i : ℕ) :
    ∀ l : List ℕ, (insIdx c i l).Perm (i :: l) := by
  intro l
  induction l with
  | nil => exact List.Perm.refl _
  | cons j js ih =>
    unfold insIdx
    by_cases hc : idxLt c i j
    · rw [if_pos hc]
    · rw [if_neg hc]
      exact (ih.cons j).trans (List.Perm.swap i j js)

theorem argsortAsc_perm (c : List ℚ) :
    (argsortAsc c).Perm (List.range c.length) := by
  unfold argsortAsc
  have : ∀ l : List ℕ, (l.foldr (insIdx c) []).Perm l := by
    intro l
    induction l with
    | nil => exact List.Perm.refl _
    | cons x xs ih =>
      simp only [List.foldr_cons]
      exact (insIdx_perm c x _).trans (ih.cons x)
  exact this _

theorem argsortAsc_asc (c : List ℚ) :
    List.Pairwise (fun i j => c.getD i 0 ≤ c.getD j 0) (argsortAsc c) := by
  apply List.Pairwise.imp ?_ (argsortAsc_pairwise c)
  intro i j h
  rcases h with h | ⟨h, _⟩
  · exact le_of_lt h
  · exact le_of_eq h

/-- The stable model realisation is one of the orders `np.argsort` may
produce. -/
theorem argsortAsc_isAscArgsort (c : List ℚ) : IsAscArgsort c (argsortAsc c) :=
  ⟨argsortAsc_perm c, argsortAsc_asc c⟩

/-- `hybrid_search_rank` is the generic ranking pipeline instantiated
with the stable argsort realisation on the fused scores. -/
theorem hybrid_search_rank_eq (bm25 sem : List ℚ) (semW lexW : ℚ)
    (maxResults : ℕ) :
    hybrid_search_rank bm25 sem semW lexW maxResults =
      ((argsortAsc (fusedScores bm25 sem semW lexW)).reverse.take
        maxResults).map
        fun i => (i, (fusedScores bm25 sem semW lexW).getD i 0,
          (minmaxZeros sem).getD i 0, (minmaxZeros bm25).getD i 0) := rfl

/-- **C3 (amended).** `SearchService.hybrid_search` sorts its results in
non-increasing order of combined score — for *every* index order that
`np.argsort` may legally produce on the fused scores (any permutation of
`range(n)` non-decreasing in them; numpy's default quicksort is not
stable, so the order of tied indices is unspecified), and in particular
for the model's stable realisation. Ties are *not* broken by entity key
ascending — see the counterexample, where a two-element tie (on which
every argsort agrees) is emitted in reverse index order. -/
theorem hybrid_search_rank_sorted :
    (∀ (bm25 sem : List ℚ) (semW lexW : ℚ) (maxResults : ℕ) (idx : List ℕ),
      IsAscArgsort (fusedScores bm25 sem semW lexW) idx →
      List.Pairwise (fun r r' : ℕ × ℚ × ℚ × ℚ => r'.2.1 ≤ r.2.1)
        ((idx.reverse.take maxResults).map
          fun i => (i, (fusedScores bm25 sem semW lexW).getD i 0,
            (minmaxZeros sem).getD i 0, (minmaxZeros bm25).getD i 0))) ∧
    (∀ (bm25 sem : List ℚ) (semW lexW : ℚ) (maxResults : ℕ),
      List.Pairwise (fun r r' : ℕ × ℚ × ℚ × ℚ => r'.2.1 ≤ r.2.1)
        (hybrid_search_rank bm25 sem semW lexW maxResults)) := by
  have hgen : ∀ (c x y : List ℚ) (maxResults : ℕ) (idx : List ℕ),
      List.Pairwise (fun i j => c.getD i 0 ≤ c.getD j 0) idx →
      List.Pairwise (fun r r' : ℕ × ℚ × ℚ × ℚ => r'.2.1 ≤ r.2.1)
        ((idx.reverse.take maxResults).map
          fun i => (i, c.getD i 0, x.getD i 0, y.getD i 0)) := by
    intro c x y maxResults idx hasc
    apply List.pairwise_map.mpr
    apply List.Pairwise.imp ?_
      (List.Pairwise.sublist (List.take_sublist _ _)
        (List.pairwise_reverse.mpr hasc))
    intro i j h
    exact h
  constructor
  · intro bm25 sem semW lexW maxResults idx hidx
    exact hgen _ _ _ maxResults idx hidx.2
  · intro bm25 sem semW lexW maxResults
    rw [hybrid_search_rank_eq]
    exact hgen _ _ _ maxResults _ (argsortAsc_asc _)

theorem minmaxZeros_ones : minmaxZeros [(1 : ℚ), 1] = [0, 0] := by
  unfold minmaxZeros
  rw [if_neg (by norm_num [npMin, npMax])]
  rfl

theorem fusedScores_ones : fusedScores [1, 1] [1, 1] (3/5) (2/5) = [0, 0] := by
  simp only [fusedScores]
  rw [minmaxZeros_ones]
  simp

/-- **C3 (witness).** The amended sortedness applied at the two-document
tie with the index order `[1, 0]` — a legal argsort output for the tied
fused scores `[0, 0]` (and the one numpy actually produces after the
`[::-1]` reversal). -/
theorem hybrid_search_rank_sorted_witness :
    List.Pairwise (fun r r' : ℕ × ℚ × ℚ × ℚ => r'.2.1 ≤ r.2.1)
      ((([1, 0] : List ℕ).reverse.take 10).map
        fun i => (i, (fusedScores [1, 1] [1, 1] (3/5) (2/5)).getD i 0,
          (minmaxZeros [1, 1]).getD i 0, (minmaxZeros [1, 1]).getD i 0)) :=
  hybrid_search_rank_sorted.1 [1, 1] [1, 1] (3/5) (2/5) 10 [1, 0]
    ⟨by rw [fusedScores_ones]
        exact List.Perm.swap 0 1 [],
     by rw [fusedScores_ones]
        norm_num [List.pairwise_cons]⟩

/-- **C3 (counterexample).** Two equal-scored documents with keys `"a"`
(corpus index 0) and `"b"` (corpus index 1) are returned in the order
`["b", "a"]` — a tie broken by *descending* index, not by entity key
ascending as the claim states. -/
theorem hybrid_tie_counterexample :
    hybrid_search_keys ["a".data, "b".data] [1, 1] [1, 1] (3/5) (2/5) 10 =
      ["b".data, "a".data] ∧
    (hybrid_search_rank [1, 1] [1, 1] (3/5) (2/5) 10).map (fun r => r.2.1) =
      [0, 0] ∧
    "a".data ≠ "b".data := by
  have hz : minmaxZeros [(1 : ℚ), 1] = [0, 0] := by
    unfold minmaxZeros
    rw [if_neg (by norm_num [npMin, npMax])]
    rfl
  have h01 : idxLt [(0 : ℚ), 0] 0 1 := Or.inr ⟨rfl, one_pos⟩
  have harg : argsortAsc [(0 : ℚ), 0] = [0, 1] := by
    show (List.range 2).foldr _ [] = _
    rw [show List.range 2 = [0, 1] from rfl]
    simp only [List.foldr_cons, List.foldr_nil]
    show insIdx _ 0 [1] = _
    unfold insIdx
    rw [if_pos h01]
  have hrank : hybrid_search_rank [1, 1] [1, 1] (3/5) (2/5) 10 =
      [(1, 0, 0, 0), (0, 0, 0, 0)] := by
    simp only [hybrid_search_rank]
    rw [if_pos (by norm_num : (0:ℚ) < 3/5 + 2/5), hz]
    simp only [List.zipWith_cons_cons, List.zipWith_nil_right, mul_zero,
      add_zero, List.zipWith]
    rw [harg]
    rfl
  refine ⟨?_, ?_, by decide⟩
  · unfold hybrid_search_keys
    rw [hrank]
    rfl
  · rw [hrank]
    rfl

/-- **C10.** Weight-scale invariance of `SearchService.hybrid_search`:
the caller-supplied weights are divided by their (positive) sum before
use, so scaling both weights by any `c > 0` leaves the result list
unchanged. -/
theorem hybrid_search_weight_scale (bm25 sem : List ℚ) (semW lexW c : ℚ)
    (maxResults : ℕ) (hpos : 0 < semW + lexW) (hc : 0 < c) :
    hybrid_search_rank bm25 sem (c * semW) (c * lexW) maxResults =
      hybrid_search_rank bm25 sem semW lexW maxResults := by
  have hc' : c ≠ 0 := ne_of_gt hc
  have h1 : 0 < c * semW + c * lexW := by
    rw [← mul_add]; exact mul_pos hc hpos
  simp only [hybrid_search_rank]
  rw [if_pos h1, if_pos h1, if_pos hpos, if_pos hpos,
      show c * semW + c * lexW = c * (semW + lexW) from (mul_add c semW lexW).symm,
      mul_div_mul_left semW (semW + lexW) hc',
      mul_div_mul_left lexW (semW + lexW) hc']

/-- **C10 (witness).** Scale invariance at concrete inputs: doubled
weights `(2·3/5, 2·2/5)` give the same ranking as `(3/5, 2/5)`. -/
theorem hybrid_search_weight_scale_witness :
    hybrid_search_rank [1, 2] [2, 1] (2 * (3/5)) (2 * (2/5)) 5 =
      hybrid_search_rank [1, 2] [2, 1] (3/5) (2/5) 5 :=
  hybrid_search_weight_scale [1, 2] [2, 1] (3/5) (2/5) 2 5 (by norm_num)
    (by norm_num)

/-! ## The hybrid ranker's `combine_results` and the adapter (C1) -/

/-- Python-level errors relevant to the `HybridRanker` call paths. -/
inductive PyErr
  | attributeError
  | typeError
deriving DecidableEq

/-- The method names defined in the body of `class HybridRanker`
(`hybrid_search_pipeline.py` lines 348–464): `__init__`,
`combine_results`, `_normalize_scores`, `_get_doc_key`. The class has no
base class besides `object`, and no definition of `get_adaptive_weights`
exists anywhere in the repository. -/
def hybridRankerMethods : List (List Char) :=
  ["__init__".data, "combine_results".data, "_normalize_scores".data,
   "_get_doc_key".data]

/-- The keyword parameters accepted by `HybridRanker.__init__`
(line 354): `alpha` and `beta` only. -/
def hybridRankerInitParams : List (List Char) :=
  ["alpha".data, "beta".data]

/-- Instance state set by `HybridRanker.__init__`. -/
structure HybridRankerObj where
  alpha : ℚ
  beta : ℚ
deriving DecidableEq

/-- Calling `HybridRanker(**kwargs)`: Python raises `TypeError` when a
keyword is not a parameter of `__init__`; otherwise the defaults are
`alpha=0.7`, `beta=0.3`. -/
def callHybridRankerInit (kwargs : List (List Char × ℚ)) :
    Except PyErr HybridRankerObj :=
  if kwargs.all (fun kv => kv.1 ∈ hybridRankerInitParams) then
    .ok { alpha := (kwargs.lookup "alpha".data).getD (7/10),
          beta := (kwargs.lookup "beta".data).getD (3/10) }
  else .error .typeError

/-- `HybridPipelineAdapter.initialize` line 51:
`HybridRanker(alpha=0.6, beta=0.3, gamma=0.1)`. -/
def adapterInitRanker : Except PyErr HybridRankerObj :=
  callHybridRankerInit
    [("alpha".data, 6/10), ("beta".data, 3/10), ("gamma".data, 1/10)]

/-- `HybridRanker.combine_results` (`hybrid_search_pipeline.py` lines
365–426). Its first executable statement (line 387) is
`alpha, beta, gamma = self.get_adaptive_weights(intent)`: Python resolves
the attribute `get_adaptive_weights` on the instance (which has only the
data attributes `alpha`, `beta`) and then on the class, whose methods are
exactly `hybridRankerMethods`; the lookup fails, so the call raises
`AttributeError` before any fusion work. The remainder of the body
(lines 389–426) is unreachable — it depends on the result of a method
that does not exist anywhere in the repository, so there is no further
code to translate and the `.ok` branch below is provably never taken. -/
def combine_results (ranker : HybridRankerObj)
    (lexicalResults semanticResults contextResults : List (List Char × ℚ))
    (intent : List Char) (topK : ℕ) : Except PyErr (List (List Char × ℚ)) :=
  if "get_adaptive_weights".data ∈ hybridRankerMethods then .ok []
  else .error .attributeError

/-- **C1.** The hybrid ranker's Combine operation does *not* resolve
per-intent weights and return a ranked list: every call to
`HybridRanker.combine_results` raises `AttributeError`, because the method
`get_adaptive_weights` it invokes on line 387 is defined nowhere in the
repository; and `HybridPipelineAdapter.initialize` itself raises
`TypeError`, because it passes `gamma=0.1` to an `__init__` that accepts
only `alpha` and `beta`. -/
theorem combine_results_always_raises :
    (∀ (ranker : HybridRankerObj)
        (lex sem ctx : List (List Char × ℚ)) (intent : List Char) (topK : ℕ),
      combine_results ranker lex sem ctx intent topK =
        .error .attributeError) ∧
    adapterInitRanker = .error .typeError := by
  constructor
  · intro ranker lex sem ctx intent topK
    unfold combine_results
    rw [if_neg (by decide)]
  · unfold adapterInitRanker callHybridRankerInit
    rw [if_neg (by decide)]

/-! ## The relationship graph builder (`GraphService`)

Code entities are records over `Str = List Char`; every dict key read with
a `.get(k, default)` whose key is always produced by the indexer is a
plain field, except `endpoint_normalized`, whose absence is semantically
meaningful and which is therefore an `Option`. -/

/-- Strings compared and searched, as character lists. -/
abbrev Str := List Char

/-- `str.lower()` (ASCII). -/
def lowerS (s : Str) : Str := s.map Char.toLower

/-- `a.startswith(b)` on character lists. -/
def isPrefixC : Str → Str → Bool
  | [], _ => true
  | _ :: _, [] => false
  | a :: as, b :: bs => a == b && isPrefixC as bs

/-- Python's substring test `needle in hay` (`"" in s` is `True`). -/
def pyInStr : Str → Str → Bool
  | n, [] => isPrefixC n []
  | n, h :: t => isPrefixC n (h :: t) || pyInStr n t

/-- `s.strip('/')`. -/
def stripSlashesS (s : Str) : Str :=
  ((s.dropWhile (· == '/')).reverse.dropWhile (· == '/')).reverse

/-- `GraphService._normalize_endpoint` at the `Str` level (the same
function as `normalize_endpoint` above, re-expressed on the string type
used by the entity records so `find_related` can call it). -/
def normalize_endpoint_s (e : Str) : Str :=
  if e = [] then []
  else
    let s := stripSlashesS e
    let s2 :=
      if isPrefixC "api/".data s then s.drop 4
      else if isPrefixC "/api/".data s then s.drop 5
      else s
    lowerS s2

/-- One entry of an entity's `api_calls` list. -/
structure ApiCall where
  method : Str
  endpoint : Str
  endpoint_normalized : Option Str
deriving DecidableEq

/-- One entry of an entity's `routes` list. -/
structure RouteRec where
  path : Str
  method : Str
deriving DecidableEq

/-- One entry of an entity's `event_listeners` list. -/
structure ListenerRec where
  event : Str
  handler : Str
deriving DecidableEq

/-- The `attributes` dict of an HTML entity (`id` string, `class` list). -/
structure AttrsRec where
  id : Str
  classes : List Str
deriving DecidableEq

/-- A code entity, parametrised by the type of one entry of its
`relations` list (`Str` for well-formed indexes; `PyVal` below models raw
dicts in which a relations entry may be `None`). The `imported` field
models the entity's `imports` list. -/
structure Item (ρ : Type) where
  name : Str
  type_ : Str
  file_path : Str
  language : Str
  start_line : ℕ
  relations : List ρ
  api_calls : List ApiCall
  routes : List RouteRec
  event_listeners : List ListenerRec
  imported : List Str
  attributes : AttrsRec
deriving DecidableEq

/-- Relation strength tiers. -/
inductive Strength
  | strong | medium | weak
deriving DecidableEq

/-- `relation_type` tags produced by `find_related` (`importsRel` is the
`"imports"` tag). -/
inductive RelType
  | calls_function | called_by_function | handles_endpoint
  | endpoint_handler | calls_route | handles_event | importsRel
deriving DecidableEq

/-- A related-entity record: the merged dict `{**item, "relation_type": …,
"relation_strength": …, "direction": …, [\x7b optional extras \x7d]}`. -/
structure RelRec (ρ : Type) where
  item : Item ρ
  relation_type : RelType
  relation_strength : Strength
  direction : Str
  endpoint_match : Option Str
  context : Option Str
deriving DecidableEq

/-- `GraphService._detect_context` (`graph_service.py` lines 33–59). -/
def detect_context {ρ : Type} (it : Item ρ) : Str :=
  let fp := lowerS it.file_path
  let lang := lowerS it.language
  if ["frontend".data, "client".data, "src".data, "public".data,
      "static".data].any (fun k => pyInStr k fp) then "frontend".data
  else if lang ∈ ["javascript".data, "typescript".data, "html".data,
      "css".data] then "frontend".data
  else if ["backend".data, "server".data, "api".data, "routes".data,
      "app".data].any (fun k => pyInStr k fp) then "backend".data
  else if lang = "python".data then "backend".data
  else
    let t := lowerS it.type_
    if t = "route".data ∨ t = "api_call".data then
      if pyInStr "api".data fp || pyInStr "route".data fp then "backend".data
      else "frontend".data
    else "unknown".data

/-- Check #1 of `find_related` (lines 95–114), function-call relations in
both directions, for a well-formed index (`relations : List Str`). -/
def part1_rels (base it : Item Str) : List (RelRec Str) :=
  (if it.relations.contains base.name ||
      it.relations.any (fun r => pyInStr base.name r) then
    [⟨it, .calls_function, .strong, "outgoing".data, none, none⟩]
   else []) ++
  (if base.relations.contains it.name ||
      base.relations.any (fun r => pyInStr it.name r) then
    [⟨it, .called_by_function, .strong, "incoming".data, none, none⟩]
   else [])

/-- Check #2, frontend→backend direction (lines 121–166): a frontend
`api_call` base matched against the candidate's routes and name. -/
def part2a {ρ : Type} (base it : Item ρ) : List (RelRec ρ) :=
  if base.type_ = "api_call".data ∧ detect_context base = "frontend".data then
    match base.api_calls.find? (fun ac => !ac.endpoint.isEmpty) with
    | none => []
    | some ac =>
      let baseEndpoint := ac.endpoint
      let baseNorm := ac.endpoint_normalized.getD (normalize_endpoint_s ac.endpoint)
      if baseEndpoint ≠ [] ∧ baseNorm ≠ [] then
        if detect_context it = "backend".data then
          (match it.routes.find? (fun ro =>
              let rn := normalize_endpoint_s ro.path
              baseNorm == rn || pyInStr baseNorm rn || pyInStr rn baseNorm) with
           | some _ =>
              [⟨it, .handles_endpoint, .strong, "backend".data,
                some baseEndpoint, some (detect_context it)⟩]
           | none => []) ++
          (let inn := normalize_endpoint_s it.name
           if baseNorm == inn || pyInStr baseNorm inn then
              [⟨it, .endpoint_handler, .medium, "backend".data, none,
                some (detect_context it)⟩]
           else [])
        else []
      else []
  else []

/-- Check #2, backend→frontend direction (lines 169–192): a backend
`route` base matched against the candidate's `api_calls`. -/
def part2b {ρ : Type} (base it : Item ρ) : List (RelRec ρ) :=
  if base.type_ = "route".data ∧ detect_context base = "backend".data then
    let nr := normalize_endpoint_s base.name
    if detect_context it = "frontend".data then
      match it.api_calls.find? (fun ac =>
          let en := ac.endpoint_normalized.getD (normalize_endpoint_s ac.endpoint)
          nr == en || pyInStr nr en || pyInStr en nr) with
      | some ac =>
          [⟨it, .calls_route, .strong, "frontend".data, some ac.endpoint,
            some (detect_context it)⟩]
      | none => []
    else []
  else []

/-- `" ".join(classes)`. -/
def joinSpace (l : List Str) : Str := List.intercalate [' '] l

/-- `s.split()` for space-separated class strings: split on spaces and
drop empty pieces. -/
def splitWsS (s : Str) : List Str := (s.splitOn ' ').filter (· ≠ [])

/-- Whether a listener's handler mentions the base element's id
(`elem_id and elem_id.lower() in handler`). -/
def idMatch {ρ : Type} (base : Item ρ) (L : ListenerRec) : Bool :=
  !base.attributes.id.isEmpty &&
    pyInStr (lowerS base.attributes.id) (lowerS L.handler)

/-- Whether a listener's handler mentions one of the base element's class
tokens (`elem_class and any(cls.lower() in handler …)`). -/
def clsMatch {ρ : Type} (base : Item ρ) (L : ListenerRec) : Bool :=
  !(joinSpace base.attributes.classes).isEmpty &&
    (splitWsS (joinSpace base.attributes.classes)).any
      (fun cls => pyInStr (lowerS cls) (lowerS L.handler))

/-- Check #3 (lines 195–218): HTML↔JS event bindings. The loop breaks at
the first listener matching by id (strength strong) or class (medium). -/
def part3 {ρ : Type} (base it : Item ρ) : List (RelRec ρ) :=
  if (base.type_ = "button".data ∨ base.type_ = "element".data ∨
      base.type_ = "input".data) ∧ base.language = "html".data then
    match it.event_listeners.find? (fun L => idMatch base L || clsMatch base L) with
    | some L =>
        if idMatch base L then
          [⟨it, .handles_event, .strong, "js_handler".data, none, none⟩]
        else
          [⟨it, .handles_event, .medium, "js_handler".data, none, none⟩]
    | none => []
  else []

/-- Check #4 (lines 221–228): import dependencies. -/
def part4 {ρ : Type} (base it : Item ρ) : List (RelRec ρ) :=
  if it.imported.contains base.name ||
      it.imported.any (fun im => pyInStr base.name im) then
    [⟨it, .importsRel, .weak, "depends_on".data, none, none⟩]
  else []

/-- All relation records one candidate contributes, in source order. -/
def rels_for_item (base it : Item Str) : List (RelRec Str) :=
  part1_rels base it ++ part2a base it ++ part2b base it ++
    part3 base it ++ part4 base it

/-- Dedup key: `(file_path, name, relation_type)` (line 234). -/
def relKey {ρ : Type} (r : RelRec ρ) : Str × Str × RelType :=
  (r.item.file_path, r.item.name, r.relation_type)

/-- First-occurrence dedup threading the `seen` set (lines 230–237). -/
def dedupRels {ρ : Type} : List (Str × Str × RelType) → List (RelRec ρ) →
    List (RelRec ρ)
  | _, [] => []
  | seen, x :: xs =>
    if relKey x ∈ seen then dedupRels seen xs
    else x :: dedupRels (relKey x :: seen) xs

/-- `{"strong": 3, "medium": 2, "weak": 1}` (line 240; the `.get` default
`0` is unreachable because `relation_strength` is always one of the
three). -/
def strengthRank : Strength → ℕ
  | .strong => 3
  | .medium => 2
  | .weak => 1

/-- Insertion step of a stable descending sort by `rank` (Python's
stable `list.sort(key=…, reverse=True)`). -/
def insDescBy {α : Type} (rank : α → ℕ) (x : α) : List α → List α
  | [] => [x]
  | y :: ys =>
    if rank x < rank y then y :: insDescBy rank x ys else x :: y :: ys

/-- Stable descending sort by `rank`. -/
def sortDescBy {α : Type} (rank : α → ℕ) (l : List α) : List α :=
  l.foldr (insDescBy rank) []

/-- `GraphService.find_related` (`graph_service.py` lines 65–243) over a
well-formed entity store: scan every candidate (skipping the base item
itself), collect relation records in source order, then dedup by
`(file_path, name, relation_type)`, sort descending by strength rank and
truncate to 15. -/
def find_related (base : Item Str) (allItems : List (Item Str)) :
    List (RelRec Str) :=
  let related := allItems.foldr
    (fun it acc =>
      (if it.file_path = base.file_path ∧ it.name = base.name then []
       else rels_for_item base it) ++ acc) []
  (sortDescBy (fun r => strengthRank r.relation_strength)
    (dedupRels [] related)).take 15

/-! ### Post-processing properties of `find_related` (C8) -/

theorem dedupRels_props {ρ : Type} :
    ∀ (l : List (RelRec ρ)) (seen : List (Str × Str × RelType)),
      List.Pairwise (fun a b => relKey a ≠ relKey b) (dedupRels seen l) ∧
      ∀ r ∈ dedupRels seen l, relKey r ∉ seen := by
  intro l
  induction l with
  | nil => intro seen; refine ⟨?_, ?_⟩ <;> simp [dedupRels]
  | cons x xs ih =>
    intro seen
    unfold dedupRels
    by_cases hx : relKey x ∈ seen
    · rw [if_pos hx]; exact ih seen
    · rw [if_neg hx]
      have h := ih (relKey x :: seen)
      constructor
      · rw [List.pairwise_cons]
        refine ⟨?_, h.1⟩
        intro r hr heq
        exact h.2 r hr (heq ▸ List.mem_cons_self _ _)
      · intro r hr
        rcases List.mem_cons.mp hr with rfl | hr'
        · exact hx
        · intro hrs
          exact h.2 r hr' (List.mem_cons_of_mem _ hrs)

theorem insDescBy_perm {α : Type} (rank : α → ℕ) (x : α) :
    ∀ l : List α, (insDescBy rank x l).Perm (x :: l) := by
  intro l
  induction l with
  | nil => exact List.Perm.refl _
  | cons y ys ih =>
    unfold insDescBy
    by_cases hc : rank x < rank y
    · rw [if_pos hc]
      exact (ih.cons y).trans (List.Perm.swap x y ys)
    · rw [if_neg hc]

theorem sortDescBy_perm {α : Type} (rank : α → ℕ) :
    ∀ l : List α, (sortDescBy rank l).Perm l := by
  intro l
  induction l with
  | nil => exact List.Perm.refl _
  | cons x xs ih =>
    show (insDescBy rank x (sortDescBy rank xs)).Perm (x :: xs)
    exact (insDescBy_perm rank x _).trans (ih.cons x)

theorem mem_insDescBy {α : Type} {rank : α → ℕ} {x k : α} :
    ∀ {l : List α}, k ∈ insDescBy rank x l → k = x ∨ k ∈ l := by
  intro l
  induction l with
  | nil => intro h; simp [insDescBy] at h; exact Or.inl h
  | cons y ys ih =>
    intro h
    unfold insDescBy at h
    by_cases hc : rank x < rank y
    · rw [if_pos hc] at h
      rcases List.mem_cons.mp h with rfl | h'
      · exact Or.inr (List.mem_cons_self k ys)
      · rcases ih h' with h'' | h''
        · exact Or.inl h''
        · exact Or.inr (List.mem_cons_of_mem y h'')
    · rw [if_neg hc] at h
      rcases List.mem_cons.mp h with rfl | h'
      · exact Or.inl rfl
      · exact Or.inr h'

theorem insDescBy_sorted {α : Type} {rank : α → ℕ} {x : α} :
    ∀ {l : List α}, List.Pairwise (fun a b => rank b ≤ rank a) l →
      List.Pairwise (fun a b => rank b ≤ rank a) (insDescBy rank x l) := by
  intro l
  induction l with
  | nil => intro _; simp [insDescBy]
  | cons y ys ih =>
    intro hs
    rw [List.pairwise_cons] at hs
    obtain ⟨hy, hys⟩ := hs
    unfold insDescBy
    by_cases hc : rank x < rank y
    · rw [if_pos hc, List.pairwise_cons]
      refine ⟨?_, ih hys⟩
      intro k hk
      rcases mem_insDescBy hk with rfl | hk'
      · exact hc.le
      · exact hy k hk'
    · rw [if_neg hc, List.pairwise_cons]
      refine ⟨?_, List.pairwise_cons.mpr ⟨hy, hys⟩⟩
      intro k hk
      rcases List.mem_cons.mp hk with rfl | hk'
      · exact Nat.le_of_not_lt hc
      · exact (hy k hk').trans (Nat.le_of_not_lt hc)

theorem sortDescBy_sorted {α : Type} (rank : α → ℕ) :
    ∀ l : List α, List.Pairwise (fun a b => rank b ≤ rank a) (sortDescBy rank l) := by
  intro l
  induction l with
  | nil => simp [sortDescBy]
  | cons x xs ih => exact insDescBy_sorted ih

/-- **C8.** `GraphService.find_related` returns at most 15 results, no
two of which share the `(file_path, name, relation_type)` triple, sorted
in non-increasing order of strength rank under
`{strong: 3, medium: 2, weak: 1}`. -/
theorem find_related_postconditions (base : Item Str) (allItems : List (Item Str)) :
    (find_related base allItems).length ≤ 15 ∧
    List.Pairwise (fun a b => relKey a ≠ relKey b) (find_related base allItems) ∧
    List.Pairwise
      (fun a b => strengthRank b.relation_strength ≤ strengthRank a.relation_strength)
      (find_related base allItems) := by
  unfold find_related
  refine ⟨?_, ?_, ?_⟩
  · rw [List.length_take]
    exact min_le_left _ _
  · apply List.Pairwise.sublist (List.take_sublist _ _)
    apply List.Pairwise.perm (dedupRels_props _ []).1
      (sortDescBy_perm _ _).symm
    intro a b h
    exact fun e => h e.symm
  · exact List.Pairwise.sublist (List.take_sublist _ _) (sortDescBy_sorted _ _)

/-! ## Graph context expansion (`GraphContextSearch.expand_related`, C9) -/

/-- `_get_doc_key`: `f"{file_path}::{name}::{start_line}"`
(`hybrid_search_pipeline.py` lines 531–536; the metadata always carries a
`name`, set by the adapter). -/
def docKeyOf {ρ : Type} (m : Item ρ) : Str :=
  m.file_path ++ "::".data ++ m.name ++ "::".data ++ (Nat.repr m.start_line).data

/-- `{"strong": 0.8, "medium": 0.5, "weak": 0.2}` (line 522; the `.get`
default `0.2` is unreachable, `relation_strength` being one of the
three). -/
def strengthScore : Strength → ℚ
  | .strong => 8/10
  | .medium => 5/10
  | .weak => 2/10

/-- One entry of the context-results list: the base metadata itself or a
merged related dict, with its context score. -/
abbrev CtxEntry := (Item Str ⊕ RelRec Str) × ℚ

/-- The `for rel in related[:5]` loop (lines 517–524), threading the
shared `seen_docs` set. -/
def addRelated (seen : List Str) : List (RelRec Str) → List CtxEntry × List Str
  | [] => ([], seen)
  | r :: rs =>
    if docKeyOf r.item ∈ seen then addRelated seen rs
    else
      let p := addRelated (docKeyOf r.item :: seen) rs
      ((Sum.inr r, strengthScore r.relation_strength) :: p.1, p.2)

/-- The `for metadata, base_score in base_results[:10]` loop (lines
503–527) on the success path of the `try` (the entity store is
well-formed, so `find_related` is total). -/
def expandLoop (store : List (Item Str)) :
    List Str → List (Item Str × ℚ) → List CtxEntry
  | _, [] => []
  | seen, (m, s) :: rest =>
    if docKeyOf m ∈ seen then expandLoop store seen rest
    else
      (Sum.inl m, s * (6/5)) ::
        (addRelated (docKeyOf m :: seen) ((find_related m store).take 5)).1 ++
        expandLoop store
          (addRelated (docKeyOf m :: seen) ((find_related m store).take 5)).2 rest

/-- `GraphContextSearch.expand_related` (`hybrid_search_pipeline.py`
lines 482–529): process at most the first 10 base hits, skipping
duplicate doc keys; for each, append the base metadata boosted by 1.2 and
the top 5 related entities with strength-table context scores. -/
def expand_related (store : List (Item Str)) (baseResults : List (Item Str × ℚ)) :
    List CtxEntry :=
  expandLoop store [] (baseResults.take 10)

/-- Whether a context entry is a boosted base hit (as opposed to a
related entity). -/
def isBaseEntry (e : CtxEntry) : Bool :=
  match e.1 with
  | .inl _ => true
  | .inr _ => false

theorem addRelated_facts (rs : List (RelRec Str)) :
    ∀ seen : List Str,
      (addRelated seen rs).1.length ≤ rs.length ∧
      ∀ e ∈ (addRelated seen rs).1,
        ∃ r ∈ rs, e = (Sum.inr r, strengthScore r.relation_strength) := by
  induction rs with
  | nil => intro seen; exact ⟨by simp [addRelated], by simp [addRelated]⟩
  | cons r rs ih =>
    intro seen
    unfold addRelated
    by_cases hr : docKeyOf r.item ∈ seen
    · rw [if_pos hr]
      have h := ih seen
      refine ⟨h.1.trans (Nat.le_succ _), ?_⟩
      intro e he
      obtain ⟨r', hr', he'⟩ := h.2 e he
      exact ⟨r', List.mem_cons_of_mem r hr', he'⟩
    · rw [if_neg hr]
      have h := ih (docKeyOf r.item :: seen)
      refine ⟨by simpa using Nat.succ_le_succ h.1, ?_⟩
      intro e he
      rcases List.mem_cons.mp he with rfl | he'
      · exact ⟨r, List.mem_cons_self r rs, rfl⟩
      · obtain ⟨r', hr', he''⟩ := h.2 e he'
        exact ⟨r', List.mem_cons_of_mem r hr', he''⟩

theorem countP_eq_zero_of_all {α : Type} {p : α → Bool} {l : List α}
    (h : ∀ a ∈ l, p a = false) : l.countP p = 0 := by
  induction l with
  | nil => simp
  | cons x xs ih =>
    rw [List.countP_cons, h x (List.mem_cons_self x xs)]
    simp [ih fun a ha => h a (List.mem_cons_of_mem x ha)]

theorem expandLoop_facts (store : List (Item Str)) (l : List (Item Str × ℚ)) :
    ∀ seen : List Str,
      (expandLoop store seen l).countP isBaseEntry ≤ l.length ∧
      (expandLoop store seen l).countP (fun e => !isBaseEntry e) ≤
        5 * (expandLoop store seen l).countP isBaseEntry ∧
      ∀ e ∈ expandLoop store seen l,
        (∀ m : Item Str, e.1 = Sum.inl m →
          ∃ s, (m, s) ∈ l ∧ e.2 = s * (6/5)) ∧
        (∀ r : RelRec Str, e.1 = Sum.inr r →
          e.2 = strengthScore r.relation_strength ∧
          ∃ m s, (m, s) ∈ l ∧ r ∈ (find_related m store).take 5) := by
  induction l with
  | nil => intro seen; refine ⟨by simp [expandLoop], by simp [expandLoop], by simp [expandLoop]⟩
  | cons p rest ih =>
    intro seen
    obtain ⟨m, s⟩ := p
    show (expandLoop store seen ((m, s) :: rest)).countP _ ≤ _ ∧ _
    unfold expandLoop
    by_cases hm : docKeyOf m ∈ seen
    · rw [if_pos hm]
      have h := ih seen
      refine ⟨h.1.trans (Nat.le_succ _), h.2.1, ?_⟩
      intro e he
      have h3 := h.2.2 e he
      constructor
      · intro m' hm'
        obtain ⟨s', hs', he'⟩ := h3.1 m' hm'
        exact ⟨s', List.mem_cons_of_mem _ hs', he'⟩
      · intro r hr
        obtain ⟨he', m', s', hms', hr'⟩ := h3.2 r hr
        exact ⟨he', m', s', List.mem_cons_of_mem _ hms', hr'⟩
    · rw [if_neg hm]
      have hadd := addRelated_facts ((find_related m store).take 5)
        (docKeyOf m :: seen)
      have hrec := ih (addRelated (docKeyOf m :: seen)
        ((find_related m store).take 5)).2
      have haddBase : (addRelated (docKeyOf m :: seen)
          ((find_related m store).take 5)).1.countP isBaseEntry = 0 := by
        apply countP_eq_zero_of_all
        intro e he
        obtain ⟨r, _, rfl⟩ := hadd.2 e he
        rfl
      have haddLen : (addRelated (docKeyOf m :: seen)
          ((find_related m store).take 5)).1.length ≤ 5 := by
        refine hadd.1.trans ?_
        rw [List.length_take]
        exact min_le_left _ _
      have h1 : isBaseEntry (Sum.inl m, s * (6/5)) = true := rfl
      have h2 : (fun e : CtxEntry => !isBaseEntry e) (Sum.inl m, s * (6/5)) = false := rfl
      refine ⟨?_, ?_, ?_⟩
      · have hr1 := hrec.1
        simp only [List.countP_cons, List.countP_append, haddBase, h1,
          if_true, List.length_cons]
        omega
      · have hr2 := hrec.2.1
        have hcntRel : (addRelated (docKeyOf m :: seen)
            ((find_related m store).take 5)).1.countP
              (fun e => !isBaseEntry e) ≤ 5 :=
          (List.countP_le_length _).trans haddLen
        simp [List.countP_cons, List.countP_append, haddBase, h1, h2]
        omega
      · intro e he
        rcases List.mem_cons.mp he with rfl | he'
        · refine ⟨?_, ?_⟩
          · intro m' hm'
            have : m = m' := Sum.inl.inj hm'
            exact ⟨s, by rw [← this]; exact List.mem_cons_self _ _, rfl⟩
          · intro r hr
            exact absurd hr (by simp)
        · rcases List.mem_append.mp he' with hA | hB
          · obtain ⟨r, hrmem, rfl⟩ := hadd.2 e hA
            refine ⟨?_, ?_⟩
            · intro m' hm'
              exact absurd hm' (by simp)
            · intro r' hr'
              have : r = r' := Sum.inr.inj hr'
              subst this
              exact ⟨rfl, m, s, List.mem_cons_self _ _, hrmem⟩
          · have h3 := hrec.2.2 e hB
            refine ⟨?_, ?_⟩
            · intro m' hm'
              obtain ⟨s', hs', he''⟩ := h3.1 m' hm'
              exact ⟨s', List.mem_cons_of_mem _ hs', he''⟩
            · intro r hr
              obtain ⟨he'', m', s', hms', hr'⟩ := h3.2 r hr
              exact ⟨he'', m', s', List.mem_cons_of_mem _ hms', hr'⟩

/-- **C9.** Graph context expansion processes at most the top 10 distinct
base hits; every boosted-base entry it emits carries
`contextScore = baseScore × 1.2` for a hit among the first 10; every
related entry carries the strength-table score
`{strong: 0.8, medium: 0.5, weak: 0.2}` and stems from the top 5 related
entities of a processed hit; and at most 5 related entries are added per
processed hit (in aggregate, `#related ≤ 5 · #base`). -/
theorem expand_related_shape (store : List (Item Str))
    (base : List (Item Str × ℚ)) :
    (expand_related store base).countP isBaseEntry ≤ 10 ∧
    (expand_related store base).countP (fun e => !isBaseEntry e) ≤
      5 * (expand_related store base).countP isBaseEntry ∧
    ∀ e ∈ expand_related store base,
      (∀ m : Item Str, e.1 = Sum.inl m →
        ∃ s, (m, s) ∈ base.take 10 ∧ e.2 = s * (6/5)) ∧
      (∀ r : RelRec Str, e.1 = Sum.inr r →
        e.2 = strengthScore r.relation_strength ∧
        ∃ m s, (m, s) ∈ base.take 10 ∧ r ∈ (find_related m store).take 5) := by
  have h := expandLoop_facts store (base.take 10) []
  refine ⟨?_, h.2.1, h.2.2⟩
  refine h.1.trans ?_
  rw [List.length_take]
  exact min_le_left _ _

/-! ### Concrete entities (witnesses and sanity checks) -/

/-- A small Python function entity. -/
def itemAlpha : Item Str :=
  ⟨"alpha".data, "function".data, "a.py".data, "python".data, 3,
   [], [], [], [], [], ⟨[], []⟩⟩

/-- An HTML button with id `search-btn`. -/
def buttonItem : Item Str :=
  ⟨"search-btn".data, "button".data, "index.html".data, "html".data, 10,
   [], [], [], [], [], ⟨"search-btn".data, []⟩⟩

/-- A JS handler whose `click` listener mentions the button id. -/
def jsHandlerItem : Item Str :=
  ⟨"handleSearch".data, "function".data, "main.js".data, "javascript".data, 5,
   [], [], [], [⟨"click".data, "handleSearch Search-Btn".data⟩], [], ⟨[], []⟩⟩

/-- Sanity check (not a claim theorem): on a concrete store the scan does
produce the expected strong `handles_event` relation, so the C8/C9
theorems above are not about a vacuous function. -/
theorem find_related_sanity :
    find_related buttonItem [jsHandlerItem] =
      [⟨jsHandlerItem, .handles_event, .strong, "js_handler".data, none, none⟩] := by
  decide

/-- **C9 (witness).** The shape theorem applied to the one-hit base list
`[(itemAlpha, 1)]` over the empty store: the emitted base entry's score
is its base score times `6/5`. -/
theorem expand_related_shape_witness :
    ∃ s, (itemAlpha, s) ∈ ([(itemAlpha, (1 : ℚ))].take 10) ∧
      (1 : ℚ) * (6/5) = s * (6/5) :=
  ((expand_related_shape [] [(itemAlpha, 1)]).2.2
    (Sum.inl itemAlpha, (1 : ℚ) * (6/5)) (List.Mem.head _)).1 itemAlpha rfl

/-! ## Flow-chain reconstruction (C7) -/

/-- A graph node as consumed by `_identify_flow_chains` (only `id` and
`type` are read). -/
structure FlowNode where
  id : Str
  type_ : Str
deriving DecidableEq

/-- A graph edge as consumed by `_identify_flow_chains` (only `source`,
`target` and `type` are read). -/
structure FlowEdge where
  source : Str
  target : Str
  type_ : Str
deriving DecidableEq

/-- `GraphService._identify_flow_chains` (`graph_service.py` lines
384–419): for each node of type `button`/`element`/`input`, every
`handles_event` edge, then every `calls_endpoint`/`calls_route` edge from
its target, then every `handles_endpoint` edge from that target emits the
four-entry chain (the source appends then pops unconditionally, so the
net effect per emission is exactly these four ids); at most 10 chains are
kept, in discovery order. -/
def identify_flow_chains_gs (nodes : List FlowNode) (edges : List FlowEdge) :
    List (List Str) :=
  ((nodes.filter fun n =>
      n.type_ = "button".data ∨ n.type_ = "element".data ∨
        n.type_ = "input".data).bind fun h =>
    (edges.filter fun e =>
        e.source = h.id ∧ e.type_ = "handles_event".data).bind fun je =>
      (edges.filter fun e =>
          e.source = je.target ∧
            (e.type_ = "calls_endpoint".data ∨
              e.type_ = "calls_route".data)).bind fun ae =>
        (edges.filter fun e =>
            e.source = ae.target ∧
              e.type_ = "handles_endpoint".data).map fun be =>
          [h.id, je.target, ae.target, be.target]).take 10

/-- Innermost loop of `CodeGraphBuilder._identify_flow_chains`
(`code_graph_builder.py` lines 330–335): each `handles_route` edge whose
target is not already on the chain emits `chain ++ [target]`
(append, copy, pop). -/
def cgbBackendEmits (edges : List FlowEdge) (chain : List Str) (apiId : Str) :
    List (List Str) :=
  (edges.filter fun e =>
      e.source = apiId ∧ e.type_ = "handles_route".data).filterMap fun be =>
    if be.target ∈ chain then none else some (chain ++ [be.target])

/-- One iteration of the `calls_endpoint` loop (lines 323–338): append
the api target if absent, run the backend loop, then `chain.pop()` —
executed whenever the api id is (still) on the chain, which silently
drops the *last* element even when the api id was never appended. -/
def cgbApiStep (edges : List FlowEdge) (st : List Str × List (List Str))
    (ae : FlowEdge) : List Str × List (List Str) :=
  let chain1 := if ae.target ∈ st.1 then st.1 else st.1 ++ [ae.target]
  let acc1 := st.2 ++ cgbBackendEmits edges chain1 ae.target
  (if ae.target ∈ chain1 then chain1.dropLast else chain1, acc1)

/-- One iteration of the `handles_event` loop (lines 316–340). -/
def cgbJsStep (edges : List FlowEdge) (st : List Str × List (List Str))
    (je : FlowEdge) : List Str × List (List Str) :=
  let chain1 := if je.target ∈ st.1 then st.1 else st.1 ++ [je.target]
  let st2 := (edges.filter fun e =>
      e.source = je.target ∧ e.type_ = "calls_endpoint".data).foldl
    (cgbApiStep edges) (chain1, st.2)
  (if je.target ∈ st2.1 then st2.1.dropLast else st2.1, st2.2)

/-- `CodeGraphBuilder._identify_flow_chains` (`code_graph_builder.py`
lines 303–342): seeds also include `form` nodes, and the
membership-guarded appends can emit chains shorter than four entries. -/
def identify_flow_chains_cgb (nodes : List FlowNode) (edges : List FlowEdge) :
    List (List Str) :=
  ((nodes.filter fun n =>
      n.type_ = "button".data ∨ n.type_ = "element".data ∨
        n.type_ = "form".data ∨ n.type_ = "input".data).foldl
    (fun acc h =>
      ((edges.filter fun e =>
          e.source = h.id ∧ e.type_ = "handles_event".data).foldl
        (cgbJsStep edges) ([h.id], acc)).2) []).take 10

/-- **C7 (amended).** In `GraphService._identify_flow_chains` every
emitted chain has exactly 4 entries, its first entry is the id of a node
of type `button`, `element` or `input`, and at most 10 chains are
returned in discovery order. (`CodeGraphBuilder._identify_flow_chains`
violates the original claim: its seeds also include `form` nodes — see
the counterexample.) -/
theorem flow_chains_gs_valid (nodes : List FlowNode) (edges : List FlowEdge) :
    (identify_flow_chains_gs nodes edges).length ≤ 10 ∧
    ∀ c ∈ identify_flow_chains_gs nodes edges,
      c.length = 4 ∧
      ∃ n ∈ nodes,
        (n.type_ = "button".data ∨ n.type_ = "element".data ∨
          n.type_ = "input".data) ∧ c.head? = some n.id := by
  constructor
  · rw [identify_flow_chains_gs, List.length_take]
    exact min_le_left _ _
  · intro c hc
    rw [identify_flow_chains_gs] at hc
    have hc' := (List.take_sublist _ _).mem hc
    rw [List.mem_bind] at hc'
    obtain ⟨h, hh, hc2⟩ := hc'
    rw [List.mem_bind] at hc2
    obtain ⟨je, _, hc3⟩ := hc2
    rw [List.mem_bind] at hc3
    obtain ⟨ae, _, hc4⟩ := hc3
    rw [List.mem_map] at hc4
    obtain ⟨be, _, rfl⟩ := hc4
    rw [List.mem_filter] at hh
    refine ⟨rfl, h, hh.1, by simpa using hh.2, rfl⟩

/-- **C7 (witness).** The amended chain-validity theorem applied to the
concrete one-path graph button → handler → api → backend. -/
theorem flow_chains_gs_valid_witness :
    (["F".data, "J".data, "A".data, "B".data] : List Str).length = 4 ∧
    ∃ n ∈ [(⟨"F".data, "button".data⟩ : FlowNode), ⟨"J".data, "func".data⟩,
        ⟨"A".data, "api_call".data⟩, ⟨"B".data, "route".data⟩],
      (n.type_ = "button".data ∨ n.type_ = "element".data ∨
        n.type_ = "input".data) ∧
      (["F".data, "J".data, "A".data, "B".data] : List Str).head? = some n.id :=
  (flow_chains_gs_valid
    [⟨"F".data, "button".data⟩, ⟨"J".data, "func".data⟩,
     ⟨"A".data, "api_call".data⟩, ⟨"B".data, "route".data⟩]
    [⟨"F".data, "J".data, "handles_event".data⟩,
     ⟨"J".data, "A".data, "calls_endpoint".data⟩,
     ⟨"A".data, "B".data, "handles_endpoint".data⟩]).2
    ["F".data, "J".data, "A".data, "B".data] (by decide)

/-- **C7 (counterexample).** `CodeGraphBuilder._identify_flow_chains`
emits a chain seeded at a `form` node: its first entry is the id of a
node whose type is neither `button`, `element` nor `input`, refuting the
claim for this reconstructor. -/
theorem flow_chains_cgb_counterexample :
    identify_flow_chains_cgb
        [⟨"F".data, "form".data⟩, ⟨"J".data, "func".data⟩,
         ⟨"A".data, "api_call".data⟩, ⟨"B".data, "route".data⟩]
        [⟨"F".data, "J".data, "handles_event".data⟩,
         ⟨"J".data, "A".data, "calls_endpoint".data⟩,
         ⟨"A".data, "B".data, "handles_route".data⟩] =
      [["F".data, "J".data, "A".data, "B".data]] ∧
    (∀ n ∈ [(⟨"F".data, "form".data⟩ : FlowNode), ⟨"J".data, "func".data⟩,
        ⟨"A".data, "api_call".data⟩, ⟨"B".data, "route".data⟩],
      n.id = "F".data →
        ¬(n.type_ = "button".data ∨ n.type_ = "element".data ∨
          n.type_ = "input".data)) := by
  constructor
  · decide
  · decide

/-! ## Exception flow in the relation scan (C2)

`find_related` has *no* `try`/`except` inside its per-entity loop; the
only handler is in the callers, wrapped around the whole call
(`ContextualSearch._get_related_files` lines 130–162). To exhibit an
exception we model a raw (pickled-dict) store in which one entry of an
entity's `relations` list may be `None`: Python's
`any(base_name in rel for rel in relations)` then raises `TypeError`
(`argument of type 'NoneType' is not iterable`) at that entry. -/

/-- A raw relations entry: a string or `None`. -/
inductive PyVal
  | pstr (s : Str)
  | pnone
deriving DecidableEq

deriving instance DecidableEq for Except

/-- Entities of a raw store. -/
abbrev ItemD := Item PyVal

/-- Relation records over a raw store. -/
abbrev RelD := RelRec PyVal

/-- Python `base_name in relations` on a raw list: membership via `==`;
a string never equals `None`, and the test never raises. -/
def listMemP (s : Str) (l : List PyVal) : Bool :=
  l.any fun v => v == PyVal.pstr s

/-- `any(needle in rel for rel in relations)` evaluated left to right:
short-circuits at the first `True`; raises at the first `None`. -/
def anySubstrP (needle : Str) : List PyVal → Except Unit Bool
  | [] => .ok false
  | .pstr h :: rest =>
    if pyInStr needle h then .ok true else anySubstrP needle rest
  | .pnone :: _ => .error ()

/-- Check #1 on a raw store (lines 95–114): each `or` evaluates the exact
membership first and runs the fallible generator only when it is
`False`. -/
def part1E (base it : ItemD) : Except Unit (List RelD) := do
  let c1 ← if listMemP base.name it.relations then pure true
           else anySubstrP base.name it.relations
  let c2 ← if listMemP it.name base.relations then pure true
           else anySubstrP it.name base.relations
  pure
    ((if c1 then [⟨it, .calls_function, .strong, "outgoing".data, none, none⟩]
      else []) ++
     (if c2 then
        [⟨it, .called_by_function, .strong, "incoming".data, none, none⟩]
      else []))

/-- Evaluation of one candidate entity (the loop body, lines 88–228) on a
raw store; checks #2–#4 never read `relations` and are total. -/
def evalItemE (base it : ItemD) : Except Unit (List RelD) := do
  let p1 ← part1E base it
  pure (p1 ++ part2a base it ++ part2b base it ++ part3 base it ++
    part4 base it)

/-- The scan loop of `find_related`: no handler around the body, so the
first exception propagates and aborts the whole call. -/
def scanE (base : ItemD) : List ItemD → Except Unit (List RelD)
  | [] => .ok []
  | it :: rest =>
    if it.file_path = base.file_path ∧ it.name = base.name then
      scanE base rest
    else do
      let rs ← evalItemE base it
      let rest' ← scanE base rest
      pure (rs ++ rest')

/-- `GraphService.find_related` on a raw store: the scan followed by the
dedup/sort/truncate post-processing (which runs only if no entity
raised). -/
def find_relatedE (base : ItemD) (allItems : List ItemD) :
    Except Unit (List RelD) :=
  (scanE base allItems).map fun related =>
    (sortDescBy (fun r => strengthRank r.relation_strength)
      (dedupRels [] related)).take 15

/-- The projected dict built per strong/medium relation by
`ContextualSearch._get_related_files` (lines 141–150). -/
structure RelFile where
  file_path : Str
  name : Str
  type_ : Str
  relation_type : RelType
  relation_strength : Strength
  direction : Str
  start_line : ℕ
  context : Str
deriving DecidableEq

/-- Projection of a relation record (`rel.get("context", "")` defaults to
the empty string). -/
def toRelFile (r : RelD) : RelFile :=
  ⟨r.item.file_path, r.item.name, r.item.type_, r.relation_type,
   r.relation_strength, r.direction, r.item.start_line, r.context.getD []⟩

/-- `ContextualSearch._get_related_files` (`contextual_search.py` lines
130–162): the *whole* `find_related` call sits inside `try`; on any
exception the function logs and returns `[]`; otherwise it keeps the
strong/medium relations, re-sorts and truncates to 15. -/
def get_related_files (base : ItemD) (allItems : List ItemD) : List RelFile :=
  match find_relatedE base allItems with
  | .error _ => []
  | .ok related =>
    (sortDescBy (fun f => strengthRank f.relation_strength)
      ((related.filter fun r =>
          r.relation_strength = .strong ∨ r.relation_strength = .medium).map
        toRelFile)).take 15

/-- **C2 (amended).** An exception while evaluating one candidate entity
is *not* swallowed inside the scan: whenever every earlier candidate is
skipped-as-self or evaluates cleanly and one candidate raises,
`find_related` itself raises — aborting the whole scan — and
`ContextualSearch._get_related_files`, which catches only around the
entire call, returns the empty list, discarding every other entity's
relations. -/
theorem find_related_scan_aborts (base : ItemD) (pre post : List ItemD)
    (bad : ItemD)
    (hpre : ∀ it ∈ pre,
      (it.file_path = base.file_path ∧ it.name = base.name) ∨
        (evalItemE base it).isOk = true)
    (hbadskip : ¬(bad.file_path = base.file_path ∧ bad.name = base.name))
    (hbad : evalItemE base bad = .error ()) :
    find_relatedE base (pre ++ bad :: post) = .error () ∧
    get_related_files base (pre ++ bad :: post) = [] := by
  have hscan : scanE base (pre ++ bad :: post) = .error () := by
    induction pre with
    | nil =>
      simp only [List.nil_append, scanE]
      rw [if_neg hbadskip, hbad]
      rfl
    | cons it pre ih =>
      have hmem := hpre it (List.mem_cons_self it pre)
      have ih' := ih fun a ha => hpre a (List.mem_cons_of_mem it ha)
      simp only [List.cons_append, scanE]
      by_cases hsk : it.file_path = base.file_path ∧ it.name = base.name
      · rw [if_pos hsk]; exact ih'
      · rw [if_neg hsk]
        rcases hmem with hsk' | hok
        · exact absurd hsk' hsk
        · cases hev : evalItemE base it with
          | error e => rfl
          | ok v =>
            show (do
              let rest' ← scanE base (pre ++ bad :: post)
              pure (v ++ rest') : Except Unit (List RelD)) = .error ()
            rw [ih']
            rfl
  constructor
  · unfold find_relatedE
    rw [hscan]
    rfl
  · unfold get_related_files
    have : find_relatedE base (pre ++ bad :: post) = .error () := by
      unfold find_relatedE; rw [hscan]; rfl
    rw [this]

/-- `itemAlpha` as a raw-store entity. -/
def itemAlphaD : ItemD :=
  ⟨"alpha".data, "function".data, "a.py".data, "python".data, 3,
   [], [], [], [], [], ⟨[], []⟩⟩

/-- A well-formed candidate whose `relations` mention `alpha`. -/
def goodOne : ItemD :=
  ⟨"g1".data, "function".data, "b.py".data, "python".data, 1,
   [.pstr "alpha".data], [], [], [], [], ⟨[], []⟩⟩

/-- A corrupt candidate: its `relations` list contains `None`. -/
def badItem : ItemD :=
  ⟨"bad".data, "function".data, "c.py".data, "python".data, 2,
   [.pnone], [], [], [], [], ⟨[], []⟩⟩

/-- Another well-formed candidate relating to the base. -/
def goodTwo : ItemD :=
  ⟨"g2".data, "function".data, "d.py".data, "python".data, 4,
   [.pstr "alpha".data], [], [], [], [], ⟨[], []⟩⟩

/-- **C2 (counterexample).** One bad entity aborts the whole scan and
empties its result: with the store `[goodOne, badItem, goodTwo]` the scan
raises and `_get_related_files` returns `[]`, although the same scan
without the bad entity returns `goodOne`'s and `goodTwo`'s strong
relations — the claim says only the bad candidate should have been
skipped. -/
theorem related_scan_abort_counterexample :
    find_relatedE itemAlphaD [goodOne, badItem, goodTwo] = .error () ∧
    get_related_files itemAlphaD [goodOne, badItem, goodTwo] = [] ∧
    get_related_files itemAlphaD [goodOne, goodTwo] ≠ [] := by
  refine ⟨by decide, by decide, by decide⟩

/-- **C2 (witness).** The amended abort theorem applied to the concrete
store `[goodOne, badItem]`. -/
theorem find_related_scan_aborts_witness :
    find_relatedE itemAlphaD [goodOne, badItem] = .error () ∧
    get_related_files itemAlphaD [goodOne, badItem] = [] :=
  find_related_scan_aborts itemAlphaD [goodOne] [] badItem
    (by decide) (by decide) (by decide)

end CodeVI
